import Mathlib

set_option maxRecDepth 8192

/-
  Verification development for the claippy conversation/context state machine
  and streaming-response segmentation engine.

  The model is a shallow embedding of src/model.rs and src/command.rs:
  * Rust String values are modelled as lists of characters.
  * HashSet values are modelled as duplicate-free lists; the arbitrary
    iteration order of a HashSet is modelled as the list order.
  * External effects are modelled as explicit oracle parameters:
    file/URL retrieval is a function from a context reference to an
    Except value, the model client stream is a list of chunk results,
    the XML library used by Artifact::extract_from_message is an oracle
    producing a parsed document, and the persistence layer is the
    conversation value held by the store.
  * Terminal rendering (printing, line erasure, syntax highlighting) is pure
    output and is elided; only the data flow of handle_query is modelled.
-/

abbrev Str := List Char

/-- WorkspaceContext from src/model.rs: a tagged reference to a file path or a URL. -/
inductive WorkspaceContext where
  | File (path : Str)
  | Url (url : Str)
  deriving DecidableEq, Repr

def httpLit : Str := "http://".data

def httpsLit : Str := "https://".data

/-- Translation of the From String instance for WorkspaceContext in src/model.rs:
    strings starting with a recognized URL scheme become Url, all else File. -/
def WorkspaceContext.fromString (raw : Str) : WorkspaceContext :=
  if httpLit.isPrefixOf raw || httpsLit.isPrefixOf raw then .Url raw else .File raw

/-- Translation of WorkspaceContext::to_string from src/model.rs. -/
def WorkspaceContext.srcString : WorkspaceContext → Str
  | .File path => path
  | .Url url => url

/-- Oracle for the external retrieval effect (std::fs::read_to_string / reqwest). -/
def Fetch := WorkspaceContext → Except Unit Str

/-- Translation of WorkspaceContext::retrieve from src/model.rs: fetch the contents
    (delegated to the oracle) and wrap them in a ClaippyContext envelope. -/
def WorkspaceContext.retrieve (fetch : Fetch) (ctx : WorkspaceContext) : Except Unit Str :=
  match fetch ctx with
  | .error e => .error e
  | .ok contents =>
      .ok ("<ClaippyContext src=\"".data ++ ctx.srcString ++ "\">".data
            ++ contents ++ "</ClaippyContext>".data)

/-- MessageParts as used (constructed and matched) in src/command.rs. -/
inductive MessageParts where
  | Markdown (text : Str)
  | Artifact (identifier : Str) (language : Option Str) (content : Str)
  deriving DecidableEq, Repr

/-- Content of a stored message: user turns store a flat string
    (Conversation::user_message in src/model.rs), assistant turns store the
    segmenter output (the add_assistant_message call in src/command.rs). -/
inductive MsgContent where
  | text (s : Str)
  | parts (ps : List MessageParts)
  deriving DecidableEq, Repr

structure Message where
  role : Str
  content : MsgContent
  deriving DecidableEq, Repr

def userRole : Str := "user".data

def assistantRole : Str := "assistant".data

/-- Conversation from src/model.rs; the two HashSet fields are modelled as lists. -/
structure Conversation where
  id : Str
  unseen_context : List WorkspaceContext
  seen_context : List WorkspaceContext
  messages : List Message
  deriving DecidableEq, Repr

/-- Translation of Conversation::empty from src/model.rs. -/
def Conversation.empty (id : Str) : Conversation :=
  { id := id, unseen_context := [], seen_context := [], messages := [] }

/-- HashSet::insert modelled on lists: a no-op when the element is present. -/
def insertContext (x : WorkspaceContext) (l : List WorkspaceContext) : List WorkspaceContext :=
  if x ∈ l then l else l ++ [x]

/-- Translation of Conversation::add_workspace_contexts from src/model.rs: each raw
    string is parsed and inserted into unseen_context unconditionally; the source
    returns Ok(()) on every path. -/
def Conversation.add_workspace_contexts (raw_contexts : List Str) (c : Conversation) :
    Except Unit Conversation :=
  .ok { c with
        unseen_context :=
          raw_contexts.foldl
            (fun acc raw => insertContext (WorkspaceContext.fromString raw) acc)
            c.unseen_context }

/-- Translation of Conversation::clear from src/model.rs: messages are emptied and
    unseen_context.extend(seen_context.drain()) moves every seen member to unseen. -/
def Conversation.clear (c : Conversation) : Except Unit Conversation :=
  .ok { c with
        messages := [],
        seen_context := [],
        unseen_context :=
          c.seen_context.foldl (fun acc x => insertContext x acc) c.unseen_context }

/-- Translation of Conversation::user_message from src/model.rs. -/
def Conversation.user_message (content : Str) : Message :=
  { role := userRole, content := .text content }

/-- The drain loop of Conversation::add_user_message in src/model.rs. It walks the
    unseen set in iteration order; on each successful retrieve the reference moves
    to the seen set and its envelope plus a newline is appended to the accumulated
    user message. On a retrieve failure the loop stops: the error together with
    the seen set built so far is returned (the references themselves have already
    been removed from the unseen set by HashSet::drain, whose Drain iterator
    removes all remaining elements when it is dropped by the early return). -/
def drainLoop (fetch : Fetch) :
    List WorkspaceContext → List WorkspaceContext → Str →
      Except Unit Str × List WorkspaceContext
  | [], seen, acc => (.ok acc, seen)
  | ctx :: rest, seen, acc =>
    match ctx.retrieve fetch with
    | .error e => (.error e, seen)
    | .ok env => drainLoop fetch rest (insertContext ctx seen) (acc ++ env ++ ['\n'])

/-- Translation of Conversation::add_user_message from src/model.rs. The returned
    pair is (the Result value, the conversation after the call): Rust mutates the
    conversation in place, so the post-state is observable even on the error path.
    In both outcomes unseen_context ends up empty (HashSet::drain clears it);
    only on full success is the user message pushed. -/
def Conversation.add_user_message (fetch : Fetch) (message : Str) (c : Conversation) :
    Except Unit Unit × Conversation :=
  match drainLoop fetch c.unseen_context c.seen_context [] with
  | (.error e, seen1) =>
      (.error e, { c with unseen_context := [], seen_context := seen1 })
  | (.ok acc, seen1) =>
      (.ok (), { c with
                 unseen_context := [],
                 seen_context := seen1,
                 messages := c.messages ++ [Conversation.user_message (acc ++ message)] })

/-- Modelled from the spec: the one-argument Conversation::add_assistant_message
    called in src/command.rs (handle_query) with the segmenter output is absent
    from src/ (src/model.rs holds an older two-argument iteration). Per the spec
    it appends an Assistant turn verbatim from the Stream Segmenter output and
    never fails. -/
def Conversation.add_assistant_message (parts : List MessageParts) (c : Conversation) :
    Conversation :=
  { c with messages := c.messages ++ [{ role := assistantRole, content := .parts parts }] }

/-
  The stream segmenter (parse_message_parts in src/command.rs).

  The regex (?ms)<ClaippyArtifact\s*([^>]*?)>(.*?)</ClaippyArtifact> is compiled
  to an explicit scanner. A match starts at the leftmost occurrence of the
  opening literal; the opening tag extends to the first following '>' (the lazy
  class [^>]*? cannot cross one); the body extends to the first following
  occurrence of the closing literal (the lazy .*? with the s flag). If the
  leftmost opening-literal occurrence cannot be completed to a match, no later
  occurrence can (any '>' or closing occurrence completing a later start also
  completes the earlier one), so scanning from the first occurrence is faithful
  to the leftmost-match semantics of the regex crate. Scanning resumes after
  the match end, as captures_iter does.
-/

def openLit : Str := "<ClaippyArtifact".data

def closeLit : Str := "</ClaippyArtifact>".data

def identKey : Str := "identifier=\"".data

def langKey : Str := "language=\"".data

/-- First occurrence split: if pat occurs in s, returns the text before the
    first occurrence and the text after it. -/
def splitFirst (pat : Str) : Str → Option (Str × Str)
  | [] => none
  | c :: cs =>
    if pat.isPrefixOf (c :: cs) then some ([], (c :: cs).drop pat.length)
    else
      match splitFirst pat cs with
      | some (before, after) => some (c :: before, after)
      | none => none

/-- Substring occurrence test, via splitFirst. -/
def containsSub (pat s : Str) : Bool := (splitFirst pat s).isSome

/-- Split at the first occurrence of a single character. -/
def splitAtChar (ch : Char) : Str → Option (Str × Str)
  | [] => none
  | c :: cs =>
    if c == ch then some ([], cs)
    else
      match splitAtChar ch cs with
      | some (before, after) => some (c :: before, after)
      | none => none

/-- Whitespace as matched by the regex class backslash-s (Unicode). -/
def isWsChar (c : Char) : Bool :=
  c == ' ' || c == '\t' || c == '\n' || c == '\r' || c == '\x0b' || c == '\x0c' ||
  c == '\u0085' || c == ' ' || c == ' ' ||
  (0x2000 ≤ c.toNat && c.toNat ≤ 0x200A) ||
  c == ' ' || c == ' ' || c == ' ' || c == ' ' || c == '　'

/-- The attribute regexes identifier="([^"]+)" and language="([^"]+)" of
    parse_message_parts: scan for the leftmost position from which the whole
    pattern matches; the capture is the maximal run of non-quote characters
    after the key, which must be nonempty and followed by a closing quote. -/
def extractAttr (key : Str) : Str → Option Str
  | [] => none
  | c :: cs =>
    if key.isPrefixOf (c :: cs) then
      let rest := (c :: cs).drop key.length
      let run := rest.takeWhile (fun ch => ch != '\"')
      if run ≠ [] ∧ rest.dropWhile (fun ch => ch != '\"') ≠ [] then some run
      else extractAttr key cs
    else extractAttr key cs

/-- Attribute parsing of parse_message_parts: the capture [^>]*? excludes the
    greedy whitespace run after the tag name; the identifier defaults to
    "unknown" when absent. -/
def parse_attrs (attrsRaw : Str) : Str × Option Str :=
  let attrs := attrsRaw.dropWhile isWsChar
  (((extractAttr identKey attrs).getD "unknown".data), extractAttr langKey attrs)

/-- One step of the scanner: the leftmost complete artifact match in s, if any,
    as (text before the match, the artifact segment, text after the match). -/
def scanArtifact (s : Str) : Option (Str × MessageParts × Str) :=
  match splitFirst openLit s with
  | none => none
  | some (before, r1) =>
    match splitAtChar '>' r1 with
    | none => none
    | some (attrsRaw, r2) =>
      match splitFirst closeLit r2 with
      | none => none
      | some (body, rest) =>
        let a := parse_attrs attrsRaw
        some (before, .Artifact a.1 a.2 body, rest)

/-- Fuel-indexed iteration of the scanner; parse_message_parts supplies the
    input length as fuel, which suffices since every match consumes at least
    one character. -/
def parseGo : Nat → Str → List MessageParts
  | 0, s => if s = [] then [] else [.Markdown s]
  | fuel + 1, s =>
    match scanArtifact s with
    | none => if s = [] then [] else [.Markdown s]
    | some (before, art, rest) =>
      (if before = [] then [] else [.Markdown before]) ++ art :: parseGo fuel rest

/-- Translation of parse_message_parts from src/command.rs: repeatedly take the
    leftmost artifact match, emitting the (nonempty) text before it as Markdown
    and the match as an Artifact; any (nonempty) remaining text is a final
    Markdown part. -/
def parse_message_parts (s : Str) : List MessageParts := parseGo s.length s

/-
  The chunk accumulation loop of handle_query in src/command.rs.
-/

/-- The character loop of handle_query: full_content accumulates completed lines
    (with their newline); current_line holds the pending partial line. -/
def accumLine : Str → Str → Str → Str × Str
  | full, cur, [] => (full, cur)
  | full, cur, ch :: rest =>
    if ch = '\n' then accumLine (full ++ cur ++ ['\n']) [] rest
    else accumLine full (cur ++ [ch]) rest

/-- The chunk loop of handle_query: each chunk result is unwrapped with the
    question-mark operator, so the first transport error aborts the whole
    function before any later statement runs. -/
def consumeStream : Str × Str → List (Except Unit Str) → Except Unit (Str × Str)
  | st, [] => .ok st
  | _, .error e :: _ => .error e
  | st, .ok chunk :: rest => consumeStream (accumLine st.1 st.2 chunk) rest

/-- The tail of the loop: a nonempty pending line is appended to full_content
    without a trailing newline. -/
def finishContent (st : Str × Str) : Str := if st.2 = [] then st.1 else st.1 ++ st.2

/-- The accumulation loop applied to an error-free chunk sequence. -/
def accumulateChunks (chunks : List Str) : Str :=
  finishContent (chunks.foldl (fun st chunk => accumLine st.1 st.2 chunk) ([], []))

/-- Observable outcome of handle_query: the returned Result and the conversation
    value held by the store after the call (db.write_conversation runs only on
    the success path). -/
structure QueryOutcome where
  result : Except Unit Unit
  db : Conversation

/-- Translation of handle_query from src/command.rs, with rendering elided: read
    the current conversation, append the user turn (the question mark propagates
    a context failure before anything else happens), drain the chunk stream (the
    question mark propagates a transport error before the assistant turn is
    built), then segment the accumulated content, append it as the assistant
    turn and persist. -/
def handle_query (fetch : Fetch) (query : Str) (chunks : List (Except Unit Str))
    (dbConv : Conversation) : QueryOutcome :=
  match Conversation.add_user_message fetch query dbConv with
  | (.error e, _) => { result := .error e, db := dbConv }
  | (.ok _, conv1) =>
    match consumeStream ([], []) chunks with
    | .error e => { result := .error e, db := dbConv }
    | .ok st =>
      let parsed := parse_message_parts (finishContent st)
      { result := .ok (), db := Conversation.add_assistant_message parsed conv1 }

/-
  Flattening of message parts back to the wire form.
-/

/-- Modelled from the spec: the textual form of the optional language attribute
    in the artifact wrapping convention. -/
def langAttrText : Option Str → Str
  | none => []
  | some l => ' ' :: (langKey ++ l ++ ['\"'])

/-- Modelled from the spec: flatten_for_transmission re-wraps each Artifact in
    its original marker syntax (the fixed wire convention, as in the examples of
    the system prompt in src/main.rs) and leaves Markdown text as is; this
    function is absent from src/, where only the decoding direction
    (parse_message_parts) is present. -/
def flattenPart : MessageParts → Str
  | .Markdown t => t
  | .Artifact ident lang content =>
      openLit ++ (' ' :: (identKey ++ ident ++ ['\"'] ++ langAttrText lang))
        ++ ('>' :: (content ++ closeLit))

/-- Flattening of a part sequence: concatenation of the literal forms. -/
def flattenParts (ps : List MessageParts) : Str := (ps.map flattenPart).flatten

/-
  Well-formedness of a part sequence for the round-trip law, and merging of
  adjacent Markdown parts.
-/

/-- A Markdown part survives the round trip when it is nonempty and does not
    itself contain the opening marker literal. -/
def wfMarkdown (m : Str) : Bool := !m.isEmpty && !(containsSub openLit m)

/-- An identifier survives the round trip when it is nonempty, free of quote and
    tag-closing characters, and does not end in the nine characters of the
    language key (which would let the language regex match across the
    identifier's closing quote). -/
def wfIdent (i : Str) : Bool :=
  !i.isEmpty && i.all (fun c => !(c == '\"') && !(c == '>')) &&
    !((langKey.take 9).isSuffixOf i)

/-- A language attribute survives the round trip when absent, or nonempty and
    free of quote and tag-closing characters. -/
def wfLang : Option Str → Bool
  | none => true
  | some l => !l.isEmpty && l.all (fun c => !(c == '\"') && !(c == '>'))

/-- An artifact body survives the round trip when it does not contain the
    closing marker literal. -/
def wfContent (content : Str) : Bool := !(containsSub closeLit content)

/-- Segmenter normal form: no two adjacent Markdown parts, and every part
    individually well-formed. -/
def wfParts : List MessageParts → Bool
  | [] => true
  | [.Markdown m] => wfMarkdown m
  | .Markdown _ :: .Markdown _ :: _ => false
  | .Markdown m :: p :: rest => wfMarkdown m && wfParts (p :: rest)
  | .Artifact i l content :: rest => wfIdent i && wfLang l && wfContent content && wfParts rest

/-- Merging of adjacent Markdown parts, the equivalence modulo which the
    round-trip law of the spec is stated. -/
def mergeAdjacentMarkdown : List MessageParts → List MessageParts
  | [] => []
  | .Markdown a :: rest =>
    match mergeAdjacentMarkdown rest with
    | .Markdown b :: tail => .Markdown (a ++ b) :: tail
    | other => .Markdown a :: other
  | p :: rest => p :: mergeAdjacentMarkdown rest

/-
  Artifact extraction (Artifact::extract_from_message in src/model.rs). The
  roxmltree library is an external collaborator, modelled as an oracle from the
  matched text to a parsed document (a bag of descendant elements).
-/

/-- Artifact from src/model.rs. -/
structure Artifact where
  id : Str
  language : Option Str
  src : Option Str
  text : Str
  deriving DecidableEq, Repr

structure XmlNode where
  name : Str
  attributes : List (Str × Str)
  textContent : Option Str
  deriving DecidableEq, Repr

structure XmlDoc where
  descendants : List XmlNode
  deriving DecidableEq, Repr

/-- Oracle for roxmltree::Document::parse (None models a parse error). -/
def XmlParse := Str → Option XmlDoc

/-- The tag name searched for by parse_artifact_xml in src/model.rs: note the
    missing letter compared with the ClaippyArtifact marker. -/
def clippyTag : Str := "ClippyArtifact".data

def claippyTag : Str := "ClaippyArtifact".data

/-- Attribute lookup on a parsed element (roxmltree Node::attribute). -/
def lookupAttr (key : Str) (n : XmlNode) : Option Str :=
  (n.attributes.find? (fun p => p.1 == key)).map (fun p => p.2)

/-- Translation of Artifact::parse_artifact_xml from src/model.rs: parse the
    matched text, find a descendant element named ClippyArtifact, and require
    its identifier attribute and text content. -/
def Artifact.parse_artifact_xml (parseXml : XmlParse) (xml : Str) : Option Artifact :=
  match parseXml xml with
  | none => none
  | some doc =>
    match doc.descendants.find? (fun n => n.name == clippyTag) with
    | none => none
    | some elem =>
      match lookupAttr "identifier".data elem with
      | none => none
      | some ident =>
        match elem.textContent with
        | none => none
        | some txt =>
          some { id := ident, language := lookupAttr "language".data elem,
                 src := lookupAttr "src".data elem, text := txt }

/-- The lazy body of the block regex of extract_from_message: the first closing
    literal reachable without crossing a newline (the dot of this regex, which
    has no s flag, does not match a newline). -/
def scanCloseSameLine : Str → Option Str
  | [] => none
  | c :: cs =>
    if closeLit.isPrefixOf (c :: cs) then some []
    else if c == '\n' then none
    else
      match scanCloseSameLine cs with
      | some mid => some (c :: mid)
      | none => none

/-- The block regex of extract_from_message: the leftmost occurrence of the
    opening literal from which a closing literal is reachable on the same line;
    the match is the whole block. -/
def matchArtifactBlock : Str → Option Str
  | [] => none
  | c :: cs =>
    if openLit.isPrefixOf (c :: cs) then
      match scanCloseSameLine ((c :: cs).drop openLit.length) with
      | some mid => some (openLit ++ mid ++ closeLit)
      | none => matchArtifactBlock cs
    else matchArtifactBlock cs

/-- Translation of Artifact::extract_from_message from src/model.rs. -/
def Artifact.extract_from_message (parseXml : XmlParse) (message : Str) : Option Artifact :=
  match matchArtifactBlock message with
  | none => none
  | some block => Artifact.parse_artifact_xml parseXml block

/-
  Concrete inputs used by the claim witnesses and counterexamples.
-/

/-- Retrieval oracle on which every fetch fails. -/
def fetchFail : Fetch := fun _ => .error ()

/-- Retrieval oracle on which every fetch succeeds with empty contents. -/
def fetchOk : Fetch := fun _ => .ok []

def conv_C7 : Conversation :=
  { id := "c".data, unseen_context := [.File "a".data], seen_context := [], messages := [] }

def conv_C3 : Conversation :=
  { id := "c".data, unseen_context := [.File "a".data], seen_context := [], messages := [] }

def conv_C4 : Conversation :=
  { id := "c".data, unseen_context := [],
    seen_context := [.File "a".data], messages := [] }

def conv_C4w : Conversation :=
  { id := "c".data, unseen_context := [.File "a".data], seen_context := [], messages := [] }

def conv_C2_mid : Conversation :=
  { id := "c".data, unseen_context := [.File "a".data], seen_context := [], messages := [] }

def conv_C2_seen : Conversation :=
  { id := "c".data, unseen_context := [], seen_context := [.File "a".data],
    messages := [Conversation.user_message
      "<ClaippyContext src=\"a\"></ClaippyContext>\nhi".data] }

def conv_C2_final : Conversation :=
  { id := "c".data, unseen_context := [.File "a".data],
    seen_context := [.File "a".data],
    messages := [Conversation.user_message
      "<ClaippyContext src=\"a\"></ClaippyContext>\nhi".data] }

def chunks_C1 : List (Except Unit Str) :=
  [.ok "Hello ".data, .ok "World".data, .error ()]

def conv_C1_user : Conversation :=
  { id := "c".data, unseen_context := [], seen_context := [],
    messages := [Conversation.user_message "q".data] }

def parts_C5cex : List MessageParts :=
  [.Markdown "<ClaippyArtifact identifier=\"x\">y</ClaippyArtifact>".data]

def parts_C5w : List MessageParts :=
  [.Markdown "hello ".data,
   .Artifact "factorial-script".data (some "python".data) "def f(x): return fact(x)".data,
   .Markdown " done".data]

def chunks_C6w : List Str :=
  ["a<Claippy".data, "Artifact identifier=\"x\">co".data, "de</ClaippyArtifact>b".data]

def str_C6w : Str := "a<ClaippyArtifact identifier=\"x\">code</ClaippyArtifact>b".data

def str_C9w : Str := "</ClaippyArtifact>x<ClaippyArtifact identifier=\"y\">z".data

/-- XML oracle for the C10 witness: parsing the matched block yields its root
    element, named ClaippyArtifact, as the only descendant. -/
def xmlOracle_C10 : XmlParse := fun _ =>
  some { descendants := [{ name := claippyTag,
                           attributes := [("identifier".data, "x".data)],
                           textContent := some "y".data }] }

def msg_C10 : Str := "<ClaippyArtifact identifier=\"x\">y</ClaippyArtifact>".data

/-
  Reachability of conversation states through the public operations.
-/

/-- States reachable from Conversation::empty through the four mutating
    operations, with the retrieval oracle fixed. The add_user step records any
    outcome (success or error), since the Rust method mutates in place. -/
inductive Reach (fetch : Fetch) : Conversation → Prop where
  | empty (id : Str) : Reach fetch (Conversation.empty id)
  | add_contexts {c c' : Conversation} (raws : List Str) :
      Reach fetch c → Conversation.add_workspace_contexts raws c = .ok c' → Reach fetch c'
  | add_user {c c' : Conversation} (msg : Str) (r : Except Unit Unit) :
      Reach fetch c → Conversation.add_user_message fetch msg c = (r, c') → Reach fetch c'
  | add_assistant {c : Conversation} (parts : List MessageParts) :
      Reach fetch c → Reach fetch (Conversation.add_assistant_message parts c)
  | clear_step {c c' : Conversation} :
      Reach fetch c → Conversation.clear c = .ok c' → Reach fetch c'

/-- Reachability as above, but with add_workspace_contexts restricted to raw
    strings whose parsed reference is not currently in the seen set. -/
inductive ReachDisjoint (fetch : Fetch) : Conversation → Prop where
  | empty (id : Str) : ReachDisjoint fetch (Conversation.empty id)
  | add_contexts {c c' : Conversation} (raws : List Str) :
      ReachDisjoint fetch c →
      (∀ raw ∈ raws, WorkspaceContext.fromString raw ∉ c.seen_context) →
      Conversation.add_workspace_contexts raws c = .ok c' → ReachDisjoint fetch c'
  | add_user {c c' : Conversation} (msg : Str) (r : Except Unit Unit) :
      ReachDisjoint fetch c → Conversation.add_user_message fetch msg c = (r, c') →
      ReachDisjoint fetch c'
  | add_assistant {c : Conversation} (parts : List MessageParts) :
      ReachDisjoint fetch c → ReachDisjoint fetch (Conversation.add_assistant_message parts c)
  | clear_step {c c' : Conversation} :
      ReachDisjoint fetch c → Conversation.clear c = .ok c' → ReachDisjoint fetch c'

/-
  Theorems. First the membership lemmas for the list model of HashSet.
-/

theorem mem_insertContext {x y : WorkspaceContext} {l : List WorkspaceContext} :
    x ∈ insertContext y l ↔ x ∈ l ∨ x = y := by
  unfold insertContext
  split
  · rename_i hmem
    constructor
    · exact fun h => Or.inl h
    · rintro (h | rfl)
      · exact h
      · exact hmem
  · simp [List.mem_append]

theorem mem_foldl_insertContext {α : Type} (f : α → WorkspaceContext) :
    ∀ (l : List α) (acc : List WorkspaceContext) (x : WorkspaceContext),
      x ∈ l.foldl (fun a c => insertContext (f c) a) acc ↔ x ∈ acc ∨ ∃ r ∈ l, f r = x := by
  intro l
  induction l with
  | nil => intro acc x; simp
  | cons y ys ih =>
    intro acc x
    simp only [List.foldl_cons, ih, mem_insertContext]
    constructor
    · rintro ((h | h) | h)
      · exact Or.inl h
      · exact Or.inr ⟨y, by simp, h.symm⟩
      · rcases h with ⟨r, hr, hfx⟩
        exact Or.inr ⟨r, by simp [hr], hfx⟩
    · rintro (h | ⟨r, hr, hfx⟩)
      · exact Or.inl (Or.inl h)
      · rcases List.mem_cons.mp hr with rfl | hr'
        · exact Or.inl (Or.inr hfx.symm)
        · exact Or.inr ⟨r, hr', hfx⟩

theorem add_user_message_unseen_nil (fetch : Fetch) (msg : Str) (c : Conversation) :
    ((Conversation.add_user_message fetch msg c).2).unseen_context = [] := by
  unfold Conversation.add_user_message
  rcases hd : drainLoop fetch c.unseen_context c.seen_context [] with ⟨r, s⟩
  cases r <;> simp

theorem add_user_message_messages_of_error (fetch : Fetch) (msg : Str) (c : Conversation)
    (h : (Conversation.add_user_message fetch msg c).1 = .error ()) :
    ((Conversation.add_user_message fetch msg c).2).messages = c.messages := by
  unfold Conversation.add_user_message at h ⊢
  rcases hd : drainLoop fetch c.unseen_context c.seen_context [] with ⟨r, s⟩
  rw [hd] at h
  cases r with
  | error e => simp
  | ok a => simp at h

/-
  Claim C7.
-/

/-- Claim C7 (confirmed): if fetching any pending context reference fails during
    add_user_message, the call returns the error and the messages sequence is
    exactly what it was before the call; no user turn is appended. -/
theorem claim_C7_fail_fast (fetch : Fetch) (msg : Str) (c : Conversation)
    (h : (Conversation.add_user_message fetch msg c).1 = .error ()) :
    (Conversation.add_user_message fetch msg c).1 = .error () ∧
    ((Conversation.add_user_message fetch msg c).2).messages = c.messages :=
  ⟨h, add_user_message_messages_of_error fetch msg c h⟩

/-- Witness for claim C7 at a concrete failing fetch. -/
theorem claim_C7_fail_fast_witness :
    (Conversation.add_user_message fetchFail "hi".data conv_C7).1 = .error () ∧
    ((Conversation.add_user_message fetchFail "hi".data conv_C7).2).messages =
      conv_C7.messages :=
  claim_C7_fail_fast fetchFail "hi".data conv_C7 rfl

/-
  Claim C3.
-/

/-- Claim C3 (code bug): with unseen_context holding File "a" and the fetch of
    File "a" failing, add_user_message returns the error but File "a" ends up in
    neither unseen_context nor seen_context: HashSet::drain removed it and the
    failed retrieve never inserted it into seen. This contradicts the claim that
    every previously-unseen reference stays in unseen or moves to seen. -/
theorem claim_C3_reference_lost :
    (Conversation.add_user_message fetchFail "m".data conv_C3).1 = .error () ∧
    ((Conversation.add_user_message fetchFail "m".data conv_C3).2).unseen_context = [] ∧
    ((Conversation.add_user_message fetchFail "m".data conv_C3).2).seen_context = [] :=
  ⟨rfl, rfl, rfl⟩

/-
  Claim C4.
-/

/-- Claim C4 (counterexample): with File "a" already in seen_context and
    unseen_context empty, add_workspace_contexts(["a"]) inserts File "a" into
    unseen_context, so the sets are not left unchanged as claimed. -/
theorem claim_C4_counterexample :
    Conversation.add_workspace_contexts ["a".data] conv_C4 =
      .ok { conv_C4 with unseen_context := [.File "a".data] } ∧
    [WorkspaceContext.File "a".data] ≠ conv_C4.unseen_context :=
  ⟨rfl, by decide⟩

/-- Claim C4 (amended): adding a raw string whose parsed reference is already in
    unseen_context leaves the conversation unchanged, and add_workspace_contexts
    never fails; but a reference already in seen_context is nevertheless inserted
    into unseen_context (shown by the counterexample), so the seen-side no-op part
    of the original claim is false. -/
theorem claim_C4_amended (c : Conversation) (raw : Str) (raws : List Str)
    (h : WorkspaceContext.fromString raw ∈ c.unseen_context) :
    Conversation.add_workspace_contexts [raw] c = .ok c ∧
    ∃ c', Conversation.add_workspace_contexts raws c = .ok c' := by
  constructor
  · simp [Conversation.add_workspace_contexts, insertContext, h]
  · exact ⟨_, rfl⟩

/-- Witness for the amended claim C4 at a concrete conversation. -/
theorem claim_C4_amended_witness :
    Conversation.add_workspace_contexts ["a".data] conv_C4w = .ok conv_C4w ∧
    ∃ c', Conversation.add_workspace_contexts ["b".data] conv_C4w = .ok c' :=
  claim_C4_amended conv_C4w "a".data ["b".data] (by decide)

/-
  Claim C8.
-/

/-- Claim C8 (confirmed): clear always succeeds; afterwards messages is empty,
    seen_context is empty, unseen_context holds exactly the union of the prior
    seen and unseen sets, and the conversation id is unchanged. -/
theorem claim_C8_clear (c : Conversation) (x : WorkspaceContext) :
    ∃ c', Conversation.clear c = .ok c' ∧
      c'.messages = [] ∧
      c'.seen_context = [] ∧
      (x ∈ c'.unseen_context ↔ x ∈ c.unseen_context ∨ x ∈ c.seen_context) ∧
      c'.id = c.id := by
  refine ⟨_, rfl, rfl, rfl, ?_, rfl⟩
  have h := mem_foldl_insertContext (fun r : WorkspaceContext => r)
    c.seen_context c.unseen_context x
  simpa using h

/-
  Claim C2.
-/

/-- Claim C2 (counterexample): the state conv_C2_final is reachable from
    Conversation::empty via add_workspace_contexts, add_user_message and
    add_workspace_contexts again, and it holds File "a" in both seen_context and
    unseen_context: adding a raw string whose parsed reference is already seen
    does place it in unseen, so the partition invariant fails on reachable
    states. -/
theorem claim_C2_counterexample :
    Reach fetchOk conv_C2_final ∧
    WorkspaceContext.File "a".data ∈ conv_C2_final.seen_context ∧
    WorkspaceContext.File "a".data ∈ conv_C2_final.unseen_context := by
  refine ⟨?_, by decide, by decide⟩
  have h0 : Reach fetchOk (Conversation.empty "c".data) := .empty _
  have h1 : Reach fetchOk conv_C2_mid := .add_contexts ["a".data] h0 rfl
  have h2 : Reach fetchOk conv_C2_seen := .add_user "hi".data (.ok ()) h1 rfl
  exact .add_contexts ["a".data] h2 rfl

/-- Claim C2 (amended): the partition invariant does hold for every state
    reachable when add_workspace_contexts is only invoked with raw strings whose
    parsed reference is not currently in seen_context (add_user_message,
    add_assistant_message and clear are unrestricted): in all such states
    seen_context and unseen_context are disjoint. -/
theorem claim_C2_amended (fetch : Fetch) (c : Conversation)
    (h : ReachDisjoint fetch c) :
    ∀ x ∈ c.seen_context, x ∉ c.unseen_context := by
  induction h with
  | empty id => simp [Conversation.empty]
  | add_contexts raws hr hres heq ih =>
    injection heq with heq'
    subst heq'
    intro x hx hmem
    simp only [Conversation.add_workspace_contexts] at hx hmem
    rw [mem_foldl_insertContext] at hmem
    rcases hmem with hmem | ⟨raw, hraw, hfx⟩
    · exact ih x hx hmem
    · exact hres raw hraw (hfx ▸ hx)
  | add_user msg r hr heq ih =>
    rename_i c c'
    have h2 : ((Conversation.add_user_message fetch msg c).2) = c' := by rw [heq]
    have := add_user_message_unseen_nil fetch msg c
    rw [h2] at this
    intro x _ hmem
    rw [this] at hmem
    exact (List.not_mem_nil x) hmem
  | add_assistant parts hr ih =>
    intro x hx hmem
    simp only [Conversation.add_assistant_message] at hx hmem
    exact ih x hx hmem
  | clear_step hr heq ih =>
    injection heq with heq'
    subst heq'
    intro x hx hmem
    simp only [Conversation.clear] at hx
    exact (List.not_mem_nil x) hx

/-- Witness for the amended claim C2: a concrete restricted-reachable state with
    a nonempty seen set, on which the disjointness conclusion is applied. -/
theorem claim_C2_amended_witness :
    ReachDisjoint fetchOk conv_C2_seen ∧
    WorkspaceContext.File "a".data ∈ conv_C2_seen.seen_context ∧
    WorkspaceContext.File "a".data ∉ conv_C2_seen.unseen_context := by
  have h0 : ReachDisjoint fetchOk (Conversation.empty "c".data) := .empty _
  have h1 : ReachDisjoint fetchOk conv_C2_mid :=
    .add_contexts ["a".data] h0 (by decide) rfl
  have h2 : ReachDisjoint fetchOk conv_C2_seen := .add_user "hi".data (.ok ()) h1 rfl
  exact ⟨h2, by decide, claim_C2_amended fetchOk conv_C2_seen h2 _ (by decide)⟩

/-
  Low-level lemmas about the scanner primitives.
-/

theorem isPrefixOf_append_self : ∀ (p r : Str), p.isPrefixOf (p ++ r) = true
  | [], _ => by simp [List.isPrefixOf]
  | c :: p, r => by
    simp only [List.cons_append, List.isPrefixOf, beq_self_eq_true, Bool.true_and]
    exact isPrefixOf_append_self p r

theorem eq_append_of_isPrefixOf : ∀ {p s : Str}, p.isPrefixOf s = true → ∃ r, s = p ++ r := by
  intro p
  induction p with
  | nil => exact fun h => ⟨_, rfl⟩
  | cons c p ih =>
    intro s h
    cases s with
    | nil => simp [List.isPrefixOf] at h
    | cons d ds =>
      simp only [List.isPrefixOf, Bool.and_eq_true, beq_iff_eq] at h
      obtain ⟨rfl, h2⟩ := h
      obtain ⟨r, rfl⟩ := ih h2
      exact ⟨r, rfl⟩

theorem splitFirst_eq {pat : Str} :
    ∀ {s a b : Str}, splitFirst pat s = some (a, b) → s = a ++ pat ++ b := by
  intro s
  induction s with
  | nil => intro a b h; simp [splitFirst] at h
  | cons c cs ih =>
    intro a b h
    rw [splitFirst] at h
    by_cases hp : pat.isPrefixOf (c :: cs) = true
    · rw [if_pos hp] at h
      obtain ⟨r, hr⟩ := eq_append_of_isPrefixOf hp
      rw [hr] at h
      rw [List.drop_left] at h
      injection h with h'
      injection h' with h1 h2
      subst h1; subst h2
      simpa using hr
    · rw [if_neg hp] at h
      cases hsf : splitFirst pat cs with
      | none => rw [hsf] at h; exact absurd h (by simp)
      | some pr =>
        rcases pr with ⟨pre, post⟩
        rw [hsf] at h
        injection h with h'
        injection h' with h1 h2
        subst h1; subst h2
        have := ih hsf
        simp [this]

theorem splitFirst_isSome {pat : Str} (hne : pat ≠ []) :
    ∀ (a b : Str), (splitFirst pat (a ++ pat ++ b)).isSome = true := by
  intro a
  induction a with
  | nil =>
    intro b
    obtain ⟨c, pt, rfl⟩ := List.exists_cons_of_ne_nil hne
    rw [List.nil_append, List.cons_append, splitFirst,
      if_pos (by simpa using isPrefixOf_append_self (c :: pt) b)]
    rfl
  | cons x a' ih =>
    intro b
    rw [List.cons_append, List.cons_append, splitFirst]
    by_cases hp : pat.isPrefixOf (x :: (a' ++ pat ++ b)) = true
    · rw [if_pos hp]; rfl
    · rw [if_neg hp]
      have h2 := ih b
      cases hsf : splitFirst pat (a' ++ pat ++ b) with
      | none => rw [hsf] at h2; simp at h2
      | some pr => rcases pr with ⟨pre, post⟩; rfl

theorem splitFirst_self {pat : Str} (hne : pat ≠ []) (r : Str) :
    splitFirst pat (pat ++ r) = some ([], r) := by
  obtain ⟨c, pt, rfl⟩ := List.exists_cons_of_ne_nil hne
  rw [List.cons_append, splitFirst,
    if_pos (by simpa using isPrefixOf_append_self (c :: pt) r)]
  simp [List.drop_left]

theorem splitFirst_boundary {pat : Str} (hne : pat ≠ []) :
    ∀ (m : Str) (r : Str),
      (∀ a b, m ++ pat ++ r = a ++ pat ++ b → ∃ a', a = m ++ a') →
      splitFirst pat (m ++ pat ++ r) = some (m, r) := by
  intro m
  induction m with
  | nil =>
    intro r _
    rw [List.nil_append]
    exact splitFirst_self hne r
  | cons x m' ih =>
    intro r hocc
    rw [List.cons_append, List.cons_append, splitFirst]
    by_cases hp : pat.isPrefixOf (x :: (m' ++ pat ++ r)) = true
    · exfalso
      obtain ⟨w, hw⟩ := eq_append_of_isPrefixOf hp
      obtain ⟨a', ha'⟩ := hocc [] w (by simpa [List.cons_append] using hw)
      exact List.cons_ne_nil x (m' ++ a') (by simpa using ha'.symm)
    · rw [if_neg hp]
      have hocc' : ∀ a b, m' ++ pat ++ r = a ++ pat ++ b → ∃ a', a = m' ++ a' := by
        intro a b heq
        obtain ⟨a', ha'⟩ := hocc (x :: a) b (by simp [List.cons_append, heq])
        rw [List.cons_append] at ha'
        injection ha' with _ h2
        exact ⟨a', h2⟩
      rw [ih r hocc']

theorem splitFirst_eq_none {pat : Str} :
    ∀ {s : Str}, (∀ a b, s ≠ a ++ pat ++ b) → splitFirst pat s = none := by
  intro s
  induction s with
  | nil => intro _; rfl
  | cons c cs ih =>
    intro h
    rw [splitFirst]
    by_cases hp : pat.isPrefixOf (c :: cs) = true
    · exfalso
      obtain ⟨r, hr⟩ := eq_append_of_isPrefixOf hp
      exact h [] r (by simpa using hr)
    · rw [if_neg hp]
      have h' : ∀ a b, cs ≠ a ++ pat ++ b := by
        intro a b heq
        exact h (c :: a) b (by simp [List.cons_append, heq])
      rw [ih h']

theorem splitAtChar_eq {ch : Char} :
    ∀ {s a b : Str}, splitAtChar ch s = some (a, b) → s = a ++ ch :: b := by
  intro s
  induction s with
  | nil => intro a b h; simp [splitAtChar] at h
  | cons c cs ih =>
    intro a b h
    rw [splitAtChar] at h
    by_cases hc : (c == ch) = true
    · rw [if_pos hc] at h
      injection h with h'
      injection h' with h1 h2
      subst h1; subst h2
      simp [beq_iff_eq.mp hc]
    · rw [if_neg hc] at h
      cases hsf : splitAtChar ch cs with
      | none => rw [hsf] at h; exact absurd h (by simp)
      | some pr =>
        rcases pr with ⟨pre, post⟩
        rw [hsf] at h
        injection h with h'
        injection h' with h1 h2
        subst h1; subst h2
        have := ih hsf
        simp [this]

theorem splitAtChar_boundary {ch : Char} :
    ∀ (a : Str), ch ∉ a → ∀ (r : Str), splitAtChar ch (a ++ ch :: r) = some (a, r) := by
  intro a
  induction a with
  | nil =>
    intro _ r
    rw [List.nil_append, splitAtChar, if_pos (by simp)]
  | cons c cs ih =>
    intro hmem r
    have hne : c ≠ ch := by
      intro hcc
      exact hmem (by simp [hcc])
    have hc : (c == ch) = false := beq_eq_false_iff_ne.mpr hne
    rw [List.cons_append, splitAtChar, if_neg (by simp [hc]),
      ih (fun hm => hmem (by simp [hm])) r]

theorem append_occurrence {m s a b pat : Str} (h : m ++ s = a ++ pat ++ b) :
    (∃ b', m = a ++ pat ++ b') ∨ (∃ a', a = m ++ a') ∨
    (∃ w t, pat = w ++ t ∧ w ≠ [] ∧ t ≠ [] ∧ m = a ++ w ∧ s = t ++ b) := by
  have h' : m ++ s = a ++ (pat ++ b) := by simpa [List.append_assoc] using h
  rcases List.append_eq_append_iff.mp h' with ⟨w, hw1, hw2⟩ | ⟨w, hw1, hw2⟩
  · exact Or.inr (Or.inl ⟨w, hw1⟩)
  · rcases List.append_eq_append_iff.mp hw2 with ⟨t, ht1, ht2⟩ | ⟨t, ht1, ht2⟩
    · left
      refine ⟨t, ?_⟩
      rw [hw1, ht1, List.append_assoc]
    · by_cases hwnil : w = []
      · subst hwnil
        refine Or.inr (Or.inl ⟨[], ?_⟩)
        simp only [List.append_nil] at hw1
        simp [hw1]
      · by_cases htnil : t = []
        · subst htnil
          left
          have hpw : pat = w := by simpa using ht1
          subst hpw
          exact ⟨[], by simp [hw1]⟩
        · exact Or.inr (Or.inr ⟨w, t, ht1, hwnil, htnil, hw1, ht2⟩)

theorem head_of_append {t b : Str} (h : t ≠ []) : (t ++ b).head? = t.head? := by
  cases t with
  | nil => exact absurd rfl h
  | cons c cs => rfl

theorem no_occurrence_of_checks {pat x : Str}
    (h : ∀ k, k ≤ x.length → pat.isPrefixOf (x.drop k) = false) :
    ∀ a b, x ≠ a ++ pat ++ b := by
  intro a b heq
  have hlen : a.length ≤ x.length := by
    rw [heq]
    simp [List.length_append]
  have hdrop : x.drop a.length = pat ++ b := by
    rw [heq, List.append_assoc, List.drop_left]
  have := h a.length hlen
  rw [hdrop, isPrefixOf_append_self] at this
  exact Bool.true_eq_false.mp this

theorem takeWhile_append_stop {p : Char → Bool} {q : Char} (hq : p q = false) :
    ∀ (v tail : Str), (∀ c ∈ v, p c = true) →
      (v ++ q :: tail).takeWhile p = v ∧ (v ++ q :: tail).dropWhile p = q :: tail := by
  intro v
  induction v with
  | nil => intro tail _; simp [List.takeWhile_cons, List.dropWhile_cons, hq]
  | cons c v ih =>
    intro tail hall
    have hc : p c = true := hall c (by simp)
    have ihv := ih tail (fun d hd => hall d (by simp [hd]))
    simp [List.takeWhile_cons, List.dropWhile_cons, hc, ihv.1, ihv.2]

theorem length_le_of_occurrence {x a y d : Str} (h : x = a ++ y ++ d) :
    y.length ≤ x.length := by
  subst h
  simp [List.length_append]
  omega

theorem mem_of_occurrence {x a y d : Str} (h : x = a ++ y ++ d) {c : Char} (hc : c ∈ y) :
    c ∈ x := by
  subst h
  simp [List.mem_append, hc]

theorem isSuffixOf_append_self (a w : Str) : w.isSuffixOf (a ++ w) = true := by
  unfold List.isSuffixOf
  rw [List.reverse_append]
  exact isPrefixOf_append_self w.reverse a.reverse

theorem first_occurrence_boundary {pat : Str} (hne : pat ≠ [])
    {m r : Str} (hm : containsSub pat m = false)
    (hspan : ∀ k, k < pat.length → k ≠ 0 → (pat.drop k).head? ≠ pat.head?) :
    splitFirst pat (m ++ pat ++ r) = some (m, r) := by
  apply splitFirst_boundary hne
  intro a b heq
  have heq' : m ++ (pat ++ r) = a ++ pat ++ b := by simpa [List.append_assoc] using heq
  rcases append_occurrence heq' with ⟨b', hb'⟩ | h2 | ⟨w, t, hwt, hwne, htne, hmw, hsr⟩
  · exfalso
    have hin : containsSub pat m = true := by
      unfold containsSub
      rw [hb']
      exact splitFirst_isSome hne a b'
    rw [hm] at hin
    exact Bool.false_ne_true hin
  · exact h2
  · exfalso
    have h1 : pat.head? = t.head? := by
      have ha := head_of_append (b := b) htne
      have hb := head_of_append (b := r) hne
      rw [← hsr, hb] at ha
      exact ha
    have htdrop : t = pat.drop w.length := by rw [hwt, List.drop_left]
    have hklt : w.length < pat.length := by
      have hlen := congrArg List.length hwt
      have htpos : 0 < t.length := List.length_pos.mpr htne
      simp [List.length_append] at hlen
      omega
    have hk0 : w.length ≠ 0 := fun h0 => hwne (List.length_eq_zero.mp h0)
    exact hspan w.length hklt hk0 (by rw [← htdrop]; exact h1.symm)

theorem extractAttr_here {key : Str} (hk : key ≠ []) {v : Str} (hv : v ≠ [])
    (hq : ∀ c ∈ v, (c == '\"') = false) (tail : Str) :
    extractAttr key (key ++ (v ++ '\"' :: tail)) = some v := by
  obtain ⟨k, kt, hkey⟩ := List.exists_cons_of_ne_nil hk
  have hpre : key.isPrefixOf (key ++ (v ++ '\"' :: tail)) = true :=
    isPrefixOf_append_self key _
  have hrest : (key ++ (v ++ '\"' :: tail)).drop key.length = v ++ '\"' :: tail :=
    List.drop_left key _
  have htw := takeWhile_append_stop (p := fun ch => ch != '\"') (q := '\"')
    (by simp) v tail (by intro c hc; simpa using hq c hc)
  rw [hkey, List.cons_append, extractAttr, ← List.cons_append, ← hkey, if_pos hpre]
  simp only [hrest, htw.1, htw.2]
  rw [if_pos ⟨hv, by simp⟩]

theorem extractAttr_skip {key : Str} :
    ∀ (m : Str) {s : Str}, (∀ a b, m ++ s = a ++ key ++ b → ∃ a', a = m ++ a') →
      extractAttr key (m ++ s) = extractAttr key s := by
  intro m
  induction m with
  | nil => intro s _; rw [List.nil_append]
  | cons c m' ih =>
    intro s hocc
    rw [List.cons_append, extractAttr]
    by_cases hp : key.isPrefixOf (c :: (m' ++ s)) = true
    · exfalso
      obtain ⟨w, hw⟩ := eq_append_of_isPrefixOf hp
      obtain ⟨a', ha'⟩ := hocc [] w (by simpa [List.cons_append] using hw)
      exact List.cons_ne_nil c (m' ++ a') (by simpa using ha'.symm)
    · rw [if_neg hp]
      refine ih (fun a b heq => ?_)
      obtain ⟨a', ha'⟩ := hocc (c :: a) b (by simp [List.cons_append, heq])
      rw [List.cons_append] at ha'
      injection ha' with _ h2
      exact ⟨a', h2⟩

theorem extractAttr_none {key : Str} :
    ∀ {s : Str}, (∀ a b, s ≠ a ++ key ++ b) → extractAttr key s = none := by
  intro s
  induction s with
  | nil => intro _; rfl
  | cons c cs ih =>
    intro h
    rw [extractAttr]
    by_cases hp : key.isPrefixOf (c :: cs) = true
    · exfalso
      obtain ⟨r, hr⟩ := eq_append_of_isPrefixOf hp
      exact h [] r (by simpa using hr)
    · rw [if_neg hp]
      exact ih (fun a b heq => h (c :: a) b (by simp [List.cons_append, heq]))

/-
  Occurrence analysis for the language attribute key inside the attribute text
  of a flattened artifact.
-/

theorem no_langKey_in_identifier_attr {i : Str} (s2 : Str)
    (hq : ∀ c ∈ i, (c == '\"') = false)
    (hsuf : (langKey.take 9).isSuffixOf i = false)
    (hlen : s2.length < langKey.length)
    (hhead : s2.head? = some '\"') :
    ∀ a b, identKey ++ (i ++ s2) ≠ a ++ langKey ++ b := by
  intro a b heq
  rcases append_occurrence heq with ⟨b', hb'⟩ | ⟨a', ha'⟩ | ⟨w, t, hwt, hwne, htne, hmw, hsr⟩
  · exact no_occurrence_of_checks (by decide) a b' hb'
  · have heq2 : identKey ++ (i ++ s2) = identKey ++ (a' ++ langKey ++ b) := by
      rw [heq, ha']
      simp [List.append_assoc]
    have heq3 := List.append_cancel_left heq2
    rcases append_occurrence heq3 with ⟨b2, hb2⟩ | ⟨a3, ha3⟩ | ⟨w, t, hwt, hwne, htne, hiw, hts⟩
    · have hquote : '\"' ∈ i := mem_of_occurrence hb2 (by decide)
      have := hq '\"' hquote
      simp at this
    · have heq4 : i ++ s2 = i ++ (a3 ++ langKey ++ b) := by
        rw [heq3, ha3]
        simp [List.append_assoc]
      have heq5 := List.append_cancel_left heq4
      have := length_le_of_occurrence heq5
      omega
    · have hthead : t.head? = some '\"' := by
        have h1 : (t ++ b).head? = t.head? := head_of_append htne
        rw [← hts, hhead] at h1
        exact h1.symm
      have htdrop : t = langKey.drop w.length := by rw [hwt, List.drop_left]
      have hklt : w.length < langKey.length := by
        have hl := congrArg List.length hwt
        have htpos : 0 < t.length := List.length_pos.mpr htne
        simp [List.length_append] at hl
        omega
      have hfact : ∀ k, k < langKey.length → (langKey.drop k).head? = some '\"' → k = 9 := by
        decide
      have hk9 : w.length = 9 := hfact w.length hklt (by rw [← htdrop]; exact hthead)
      have hwtake : w = langKey.take 9 := by rw [← hk9, hwt, List.take_left]
      have hsufw : (langKey.take 9).isSuffixOf i = true := by
        rw [← hwtake, hiw]
        exact isSuffixOf_append_self _ _
      rw [hsuf] at hsufw
      exact Bool.false_ne_true hsufw
  · have hwk : w = langKey.take w.length := by rw [hwt, List.take_left]
    have hwle : w.length ≤ langKey.length := by
      have hl := congrArg List.length hwt
      simp [List.length_append] at hl
      omega
    have hw0 : w.length ≠ 0 := fun h0 => hwne (List.length_eq_zero.mp h0)
    have hsufw : w.isSuffixOf identKey = true := by
      rw [hmw]
      exact isSuffixOf_append_self _ _
    have hfact : ∀ k, k ≤ langKey.length → k ≠ 0 →
        (langKey.take k).isSuffixOf identKey = false := by decide
    have := hfact w.length hwle hw0
    rw [← hwk, hsufw] at this
    exact Bool.true_eq_false.mp this

theorem langKey_boundary {i l : Str}
    (hq : ∀ c ∈ i, (c == '\"') = false)
    (hsuf : (langKey.take 9).isSuffixOf i = false) :
    ∀ a b,
      (identKey ++ (i ++ ['\"', ' '])) ++ (langKey ++ (l ++ ['\"'])) = a ++ langKey ++ b →
      ∃ a', a = (identKey ++ (i ++ ['\"', ' '])) ++ a' := by
  intro a b heq
  rcases append_occurrence heq with ⟨b', hb'⟩ | h2 | ⟨w, t, hwt, hwne, htne, hmw, hsr⟩
  · exact absurd hb'
      (no_langKey_in_identifier_attr ['\"', ' '] hq hsuf (by decide) (by decide) a b')
  · exact h2
  · exfalso
    have hthead : t.head? = some 'l' := by
      have h1 : (t ++ b).head? = t.head? := head_of_append htne
      have h2 : (langKey ++ (l ++ ['\"'])).head? = some 'l' := by
        rw [head_of_append (by decide : langKey ≠ [])]
        decide
      rw [← hsr, h2] at h1
      exact h1.symm
    have htdrop : t = langKey.drop w.length := by rw [hwt, List.drop_left]
    have hklt : w.length < langKey.length := by
      have hl := congrArg List.length hwt
      have htpos : 0 < t.length := List.length_pos.mpr htne
      simp [List.length_append] at hl
      omega
    have hw0 : w.length ≠ 0 := fun h0 => hwne (List.length_eq_zero.mp h0)
    have hfact : ∀ k, k < langKey.length → k ≠ 0 → (langKey.drop k).head? ≠ some 'l' := by
      decide
    exact hfact w.length hklt hw0 (by rw [← htdrop]; exact hthead)

theorem containsSub_of_eq {pat s a b : Str} (hne : pat ≠ []) (h : s = a ++ pat ++ b) :
    containsSub pat s = true := by
  unfold containsSub
  rw [h]
  exact splitFirst_isSome hne a b

theorem splitFirst_none_of_not_contains {pat s : Str} (h : containsSub pat s = false) :
    splitFirst pat s = none := by
  unfold containsSub at h
  cases hsf : splitFirst pat s with
  | none => rfl
  | some pr => rw [hsf] at h; simp at h

theorem wfMarkdown_spec {m : Str} (h : wfMarkdown m = true) :
    m ≠ [] ∧ containsSub openLit m = false := by
  unfold wfMarkdown at h
  rw [Bool.and_eq_true] at h
  rcases h with ⟨h1, h2⟩
  constructor
  · intro he
    rw [he] at h1
    simp at h1
  · simpa using h2

theorem wfIdent_spec {i : Str} (h : wfIdent i = true) :
    i ≠ [] ∧ (∀ c ∈ i, (c == '\"') = false) ∧ (∀ c ∈ i, (c == '>') = false) ∧
      (langKey.take 9).isSuffixOf i = false := by
  unfold wfIdent at h
  simp only [Bool.and_eq_true, List.all_eq_true] at h
  rcases h with ⟨⟨h1, h2⟩, h3⟩
  refine ⟨?_, ?_, ?_, by simpa using h3⟩
  · intro he
    rw [he] at h1
    simp at h1
  · intro c hc
    have := h2 c hc
    simpa using this.1
  · intro c hc
    have := h2 c hc
    simpa using this.2

theorem wfLang_some_spec {l : Str} (h : wfLang (some l) = true) :
    l ≠ [] ∧ (∀ c ∈ l, (c == '\"') = false) ∧ (∀ c ∈ l, (c == '>') = false) := by
  unfold wfLang at h
  simp only [Bool.and_eq_true, List.all_eq_true] at h
  rcases h with ⟨h1, h2⟩
  refine ⟨?_, ?_, ?_⟩
  · intro he
    rw [he] at h1
    simp at h1
  · intro c hc
    have := h2 c hc
    simpa using this.1
  · intro c hc
    have := h2 c hc
    simpa using this.2

theorem wfContent_spec {co : Str} (h : wfContent co = true) :
    containsSub closeLit co = false := by
  unfold wfContent at h
  simpa using h

theorem gt_not_mem_langAttrText {l : Option Str} (hl : wfLang l = true) :
    '>' ∉ langAttrText l := by
  cases l with
  | none => simp [langAttrText]
  | some lv =>
    obtain ⟨_, _, hgt⟩ := wfLang_some_spec hl
    simp only [langAttrText, List.mem_cons, List.mem_append]
    rintro (h | (h | h) | h)
    · exact absurd h (by decide)
    · revert h
      decide
    · have := hgt '>' h
      simp at this
    · revert h
      decide

theorem gt_not_mem_attrsRaw {i : Str} {l : Option Str}
    (hi : wfIdent i = true) (hl : wfLang l = true) :
    '>' ∉ (' ' :: (identKey ++ i ++ ['\"'] ++ langAttrText l)) := by
  obtain ⟨_, _, hgt, _⟩ := wfIdent_spec hi
  have hlt := gt_not_mem_langAttrText hl
  simp only [List.mem_cons, List.mem_append]
  rintro (h | ((h | h) | h) | h)
  · exact absurd h (by decide)
  · revert h
    decide
  · have := hgt '>' h
    simp at this
  · exact absurd h (by decide)
  · exact hlt h

theorem attrs_extract {i : Str} {l : Option Str}
    (hi : wfIdent i = true) (hl : wfLang l = true) :
    parse_attrs (' ' :: (identKey ++ i ++ ['\"'] ++ langAttrText l)) = (i, l) := by
  obtain ⟨hiNe, hqi, _, hsuf⟩ := wfIdent_spec hi
  have hik : identKey = 'i' :: "dentifier=\"".data := rfl
  have hdrop : (' ' :: (identKey ++ i ++ ['\"'] ++ langAttrText l)).dropWhile isWsChar
      = identKey ++ (i ++ '\"' :: langAttrText l) := by
    rw [List.dropWhile_cons, if_pos (by decide)]
    rw [hik]
    simp only [List.cons_append, List.dropWhile_cons, if_neg (by decide : ¬isWsChar 'i' = true)]
    simp [List.append_assoc]
  have hident : extractAttr identKey (identKey ++ (i ++ '\"' :: langAttrText l)) = some i :=
    extractAttr_here (by decide) hiNe hqi _
  cases l with
  | none =>
    have hlang : extractAttr langKey (identKey ++ (i ++ '\"' :: langAttrText none)) = none :=
      extractAttr_none (no_langKey_in_identifier_attr ['\"'] hqi hsuf (by decide) (by decide))
    unfold parse_attrs
    rw [hdrop]
    simp only [hident, hlang, Option.getD_some]
  | some lv =>
    obtain ⟨hlvNe, hqlv, _⟩ := wfLang_some_spec hl
    have hshape : identKey ++ (i ++ '\"' :: langAttrText (some lv))
        = (identKey ++ (i ++ ['\"', ' '])) ++ (langKey ++ (lv ++ ['\"'])) := by
      simp [langAttrText, List.append_assoc]
    have hlang : extractAttr langKey (identKey ++ (i ++ '\"' :: langAttrText (some lv)))
        = some lv := by
      rw [hshape, extractAttr_skip _ (langKey_boundary hqi hsuf)]
      exact extractAttr_here (by decide) hlvNe hqlv []
    unfold parse_attrs
    rw [hdrop]
    simp only [hident, hlang, Option.getD_some]

theorem scanArtifact_flatten {m i co X : Str} {l : Option Str}
    (hm : containsSub openLit m = false)
    (hi : wfIdent i = true) (hl : wfLang l = true) (hco : wfContent co = true) :
    scanArtifact (m ++ (flattenPart (.Artifact i l co) ++ X)) =
      some (m, MessageParts.Artifact i l co, X) := by
  have hshape : m ++ (flattenPart (.Artifact i l co) ++ X)
      = m ++ openLit ++ ((' ' :: (identKey ++ i ++ ['\"'] ++ langAttrText l))
          ++ '>' :: (co ++ closeLit ++ X)) := by
    simp [flattenPart, List.append_assoc]
  have h1 : splitFirst openLit
      (m ++ openLit ++ ((' ' :: (identKey ++ i ++ ['\"'] ++ langAttrText l))
          ++ '>' :: (co ++ closeLit ++ X)))
      = some (m, (' ' :: (identKey ++ i ++ ['\"'] ++ langAttrText l))
          ++ '>' :: (co ++ closeLit ++ X)) :=
    first_occurrence_boundary (by decide) hm (by decide)
  have h2 : splitAtChar '>'
      ((' ' :: (identKey ++ i ++ ['\"'] ++ langAttrText l)) ++ '>' :: (co ++ closeLit ++ X))
      = some (' ' :: (identKey ++ i ++ ['\"'] ++ langAttrText l), co ++ closeLit ++ X) :=
    splitAtChar_boundary _ (gt_not_mem_attrsRaw hi hl) _
  have h3 : splitFirst closeLit (co ++ closeLit ++ X) = some (co, X) :=
    first_occurrence_boundary (by decide) (wfContent_spec hco) (by decide)
  have h4 := attrs_extract hi hl
  rw [hshape]
  simp only [scanArtifact, h1, h2, h3, h4]

theorem parseGo_nil : ∀ f, parseGo f [] = []
  | 0 => rfl
  | _ + 1 => rfl

theorem scanArtifact_rest_lt {s before : Str} {art : MessageParts} {rest : Str}
    (h : scanArtifact s = some (before, art, rest)) : rest.length < s.length := by
  unfold scanArtifact at h
  cases h1 : splitFirst openLit s with
  | none => simp only [h1] at h; exact absurd h (by simp)
  | some pr1 =>
    rcases pr1 with ⟨p, r1⟩
    simp only [h1] at h
    cases h2 : splitAtChar '>' r1 with
    | none => simp only [h2] at h; exact absurd h (by simp)
    | some pr2 =>
      rcases pr2 with ⟨araw, r2⟩
      simp only [h2] at h
      cases h3 : splitFirst closeLit r2 with
      | none => simp only [h3] at h; exact absurd h (by simp)
      | some pr3 =>
        rcases pr3 with ⟨body, rst⟩
        simp only [h3, Option.some.injEq, Prod.mk.injEq] at h
        obtain ⟨_, _, hrest⟩ := h
        subst hrest
        have e1 := splitFirst_eq h1
        have e2 := splitAtChar_eq h2
        have e3 := splitFirst_eq h3
        subst e1
        subst e2
        subst e3
        simp [List.length_append]
        omega

theorem parseGo_congr :
    ∀ (n f g : Nat) (s : Str), s.length ≤ n → s.length ≤ f → s.length ≤ g →
      parseGo f s = parseGo g s := by
  intro n
  induction n with
  | zero =>
    intro f g s hn _ _
    have hs : s = [] := by
      cases s with
      | nil => rfl
      | cons a l => simp at hn
    subst hs
    rw [parseGo_nil, parseGo_nil]
  | succ k ih =>
    intro f g s hn hf hg
    cases s with
    | nil => rw [parseGo_nil, parseGo_nil]
    | cons hd tl =>
      cases f with
      | zero => exact absurd hf (by simp)
      | succ f' =>
        cases g with
        | zero => exact absurd hg (by simp)
        | succ g' =>
          cases hscan : scanArtifact (hd :: tl) with
          | none => simp only [parseGo, hscan]
          | some triple =>
            rcases triple with ⟨pre, art, rest⟩
            have hlt := scanArtifact_rest_lt hscan
            have hrec : parseGo f' rest = parseGo g' rest := by
              apply ih f' g' rest
              · simp at hn hlt ⊢
                omega
              · simp at hf hlt ⊢
                omega
              · simp at hg hlt ⊢
                omega
            simp only [parseGo, hscan, hrec]

theorem parse_message_parts_eq_parseGo {s : Str} (f : Nat) (hf : s.length ≤ f) :
    parse_message_parts s = parseGo f s := by
  unfold parse_message_parts
  exact parseGo_congr s.length s.length f s le_rfl le_rfl hf

theorem flattenParts_cons (p : MessageParts) (ps : List MessageParts) :
    flattenParts (p :: ps) = flattenPart p ++ flattenParts ps := by
  simp [flattenParts]

theorem flattenPart_artifact_ne (i co : Str) (l : Option Str) :
    flattenPart (.Artifact i l co) ≠ [] := by
  have hop : openLit = '<' :: "ClaippyArtifact".data := rfl
  simp [flattenPart, hop]

theorem round_trip_parseGo :
    ∀ (S : List MessageParts), wfParts S = true →
      ∀ (f : Nat), (flattenParts S).length ≤ f → parseGo f (flattenParts S) = S
  | [], _, f, _ => by
    simpa [flattenParts] using parseGo_nil f
  | [.Markdown m], hwf, f, hf => by
    obtain ⟨hmne, hmc⟩ := wfMarkdown_spec (by simpa [wfParts] using hwf)
    have hflat : flattenParts [.Markdown m] = m := by
      simp [flattenParts, flattenPart]
    rw [hflat] at hf ⊢
    have hscan : scanArtifact m = none := by
      unfold scanArtifact
      rw [splitFirst_none_of_not_contains hmc]
    cases f with
    | zero =>
      exfalso
      have := List.length_pos.mpr hmne
      omega
    | succ k =>
      simp only [parseGo, hscan, if_neg hmne]
  | .Markdown m :: .Markdown m2 :: rest, hwf, f, hf => by
    simp [wfParts] at hwf
  | .Markdown m :: .Artifact i l co :: rest, hwf, f, hf => by
    have hwf2 : wfMarkdown m = true ∧ wfParts (.Artifact i l co :: rest) = true := by
      simpa [wfParts, Bool.and_eq_true] using hwf
    obtain ⟨hmne, hmc⟩ := wfMarkdown_spec hwf2.1
    have hwfa : wfIdent i = true ∧ wfLang l = true ∧ wfContent co = true ∧
        wfParts rest = true := by
      simpa [wfParts, Bool.and_eq_true, and_assoc] using hwf2.2
    have hflat : flattenParts (.Markdown m :: .Artifact i l co :: rest)
        = m ++ (flattenPart (.Artifact i l co) ++ flattenParts rest) := by
      rw [flattenParts_cons, flattenParts_cons]
      rfl
    have hscan := scanArtifact_flatten (X := flattenParts rest) hmc hwfa.1 hwfa.2.1 hwfa.2.2.1
    rw [hflat] at hf ⊢
    cases f with
    | zero =>
      exfalso
      have h1 := List.length_pos.mpr hmne
      have h2 : m.length ≤
          (m ++ (flattenPart (.Artifact i l co) ++ flattenParts rest)).length := by
        rw [List.length_append]
        omega
      omega
    | succ k =>
      simp only [parseGo, hscan, if_neg hmne]
      have hrec : parseGo k (flattenParts rest) = rest := by
        apply round_trip_parseGo rest hwfa.2.2.2 k
        have := List.length_pos.mpr hmne
        simp [List.length_append] at hf ⊢
        omega
      rw [hrec]
      simp
  | .Artifact i l co :: rest, hwf, f, hf => by
    have hwfa : wfIdent i = true ∧ wfLang l = true ∧ wfContent co = true ∧
        wfParts rest = true := by
      simpa [wfParts, Bool.and_eq_true, and_assoc] using hwf
    have hflat : flattenParts (.Artifact i l co :: rest)
        = flattenPart (.Artifact i l co) ++ flattenParts rest := flattenParts_cons _ _
    have hscan := scanArtifact_flatten (m := []) (X := flattenParts rest)
      rfl hwfa.1 hwfa.2.1 hwfa.2.2.1
    rw [List.nil_append] at hscan
    rw [hflat] at hf ⊢
    cases f with
    | zero =>
      exfalso
      have h1 := List.length_pos.mpr (flattenPart_artifact_ne i co l)
      have h2 : (flattenPart (.Artifact i l co)).length ≤
          (flattenPart (.Artifact i l co) ++ flattenParts rest).length := by
        rw [List.length_append]
        omega
      omega
    | succ k =>
      simp only [parseGo, hscan]
      have hrec : parseGo k (flattenParts rest) = rest := by
        apply round_trip_parseGo rest hwfa.2.2.2 k
        have := List.length_pos.mpr (flattenPart_artifact_ne i co l)
        simp [List.length_append] at hf ⊢
        omega
      rw [hrec]
      simp

/-
  Claim C5.
-/

/-- Claim C5 (counterexample): for the sequence holding the single Markdown part
    whose text spells out a complete artifact block, flattening and re-segmenting
    yields an Artifact part, not the original Markdown part, and no merging of
    adjacent Markdown parts reconciles the two; so the round-trip law does not
    hold for every sequence of parts. -/
theorem claim_C5_counterexample :
    parse_message_parts (flattenParts parts_C5cex) =
      [.Artifact "x".data none "y".data] ∧
    mergeAdjacentMarkdown (parse_message_parts (flattenParts parts_C5cex)) ≠
      mergeAdjacentMarkdown parts_C5cex := by
  constructor
  · decide
  · decide

/-- Claim C5 (amended): the round-trip law holds for every sequence in segmenter
    normal form, and then exactly (no merging needed): no two adjacent Markdown
    parts; Markdown parts nonempty and not containing the opening marker literal;
    identifiers nonempty, free of quote and tag-closing characters, and not
    ending in the nine characters of the language key; languages (when present)
    nonempty and free of quote and tag-closing characters; artifact bodies not
    containing the closing marker literal. -/
theorem claim_C5_roundtrip_amended (S : List MessageParts) (hwf : wfParts S = true) :
    parse_message_parts (flattenParts S) = S :=
  round_trip_parseGo S hwf (flattenParts S).length le_rfl

/-- Witness for the amended claim C5 at a concrete three-part sequence. -/
theorem claim_C5_roundtrip_amended_witness :
    wfParts parts_C5w = true ∧
    parse_message_parts (flattenParts parts_C5w) = parts_C5w :=
  ⟨by decide, claim_C5_roundtrip_amended parts_C5w (by decide)⟩

/-
  Claim C6.
-/

theorem accumLine_join : ∀ (cs full cur : Str),
    (accumLine full cur cs).1 ++ (accumLine full cur cs).2 = full ++ cur ++ cs := by
  intro cs
  induction cs with
  | nil => intro full cur; simp [accumLine]
  | cons c rest ih =>
    intro full cur
    by_cases hc : c = '\n'
    · subst hc
      rw [accumLine, if_pos rfl, ih]
      simp
    · rw [accumLine, if_neg hc, ih]
      simp

theorem foldl_accumLine_join : ∀ (chunks : List Str) (st : Str × Str),
    (chunks.foldl (fun st chunk => accumLine st.1 st.2 chunk) st).1 ++
      (chunks.foldl (fun st chunk => accumLine st.1 st.2 chunk) st).2 =
      st.1 ++ st.2 ++ chunks.flatten := by
  intro chunks
  induction chunks with
  | nil => intro st; simp
  | cons c cs ih =>
    intro st
    rw [List.foldl_cons]
    rw [ih (accumLine st.1 st.2 c)]
    rw [accumLine_join]
    simp [List.append_assoc]

theorem accumulateChunks_eq_flatten (chunks : List Str) :
    accumulateChunks chunks = chunks.flatten := by
  unfold accumulateChunks finishContent
  have h := foldl_accumLine_join chunks ([], [])
  rcases hst : chunks.foldl (fun st chunk => accumLine st.1 st.2 chunk) ([], []) with ⟨full, cur⟩
  rw [hst] at h
  dsimp only at h ⊢
  simp only [List.nil_append] at h
  by_cases hcur : cur = []
  · subst hcur
    rw [if_pos rfl]
    simpa using h
  · rw [if_neg hcur]
    exact h

/-- Claim C6 (confirmed): for every string s and every partition of s into
    chunks, the accumulation loop of handle_query reassembles exactly s (the
    concatenation of the chunks), and segmenting the accumulated content gives
    the same segment sequence as segmenting s as one chunk. -/
theorem claim_C6_chunk_independence (chunks : List Str) (s : Str)
    (h : chunks.flatten = s) :
    accumulateChunks chunks = s ∧
    parse_message_parts (accumulateChunks chunks) = parse_message_parts s := by
  have ha := accumulateChunks_eq_flatten chunks
  rw [h] at ha
  exact ⟨ha, by rw [ha]⟩

/-- Witness for claim C6: the opening marker is split across three chunks. -/
theorem claim_C6_chunk_independence_witness :
    chunks_C6w.flatten = str_C6w ∧
    accumulateChunks chunks_C6w = str_C6w ∧
    parse_message_parts (accumulateChunks chunks_C6w) = parse_message_parts str_C6w := by
  refine ⟨by decide, ?_, ?_⟩
  · exact (claim_C6_chunk_independence chunks_C6w str_C6w (by decide)).1
  · exact (claim_C6_chunk_independence chunks_C6w str_C6w (by decide)).2

/-
  Claim C9.
-/

theorem no_pair_of_checks {s : Str}
    (h : ∀ j, j ≤ s.length → ∀ k, k ≤ s.length →
      openLit.isPrefixOf (s.drop j) = true → closeLit.isPrefixOf (s.drop k) = true →
      k < j + 17) :
    ∀ a b c d, s ≠ a ++ openLit ++ b ++ '>' :: (c ++ closeLit ++ d) := by
  intro a b c d heq
  have hsa : s = a ++ (openLit ++ (b ++ '>' :: (c ++ closeLit ++ d))) := by
    rw [heq]
    simp [List.append_assoc]
  have hsc : s = (a ++ openLit ++ b ++ '>' :: c) ++ (closeLit ++ d) := by
    rw [heq]
    simp [List.append_assoc]
  have hopenAt : openLit.isPrefixOf (s.drop a.length) = true := by
    rw [hsa, List.drop_left]
    exact isPrefixOf_append_self openLit _
  have hcloseAt :
      closeLit.isPrefixOf (s.drop (a ++ openLit ++ b ++ '>' :: c).length) = true := by
    rw [hsc, List.drop_left]
    exact isPrefixOf_append_self closeLit _
  have hopen16 : openLit.length = 16 := by decide
  have l1 := congrArg List.length hsa
  simp only [List.length_append, List.length_cons] at l1
  have l2 := congrArg List.length hsc
  simp only [List.length_append, List.length_cons] at l2
  have l3 : (a ++ openLit ++ b ++ '>' :: c).length
      = a.length + openLit.length + b.length + c.length + 1 := by
    simp [List.length_append]
    omega
  have hj : a.length ≤ s.length := by omega
  have hk : (a ++ openLit ++ b ++ '>' :: c).length ≤ s.length := by omega
  have := h a.length hj (a ++ openLit ++ b ++ '>' :: c).length hk hopenAt hcloseAt
  omega

/-- Claim C9 (confirmed): an input containing the opening marker literal but no
    complete marker pair (no decomposition with a closing marker literal after
    the tag-closing character of an opening marker, so in particular no matching
    closing marker) is returned as one single Markdown segment equal to the
    whole input; the unterminated marker is kept as literal text, not dropped
    and not an error. -/
theorem claim_C9_unterminated (s : Str)
    (hopen : containsSub openLit s = true)
    (hnopair : ∀ a b c d, s ≠ a ++ openLit ++ b ++ '>' :: (c ++ closeLit ++ d)) :
    parse_message_parts s = [.Markdown s] := by
  have hne : s ≠ [] := by
    intro he
    subst he
    simp [containsSub, splitFirst] at hopen
  have hscan : scanArtifact s = none := by
    unfold scanArtifact
    cases h1 : splitFirst openLit s with
    | none => rfl
    | some pr1 =>
      rcases pr1 with ⟨p, r1⟩
      cases h2 : splitAtChar '>' r1 with
      | none => simp only [h2]
      | some pr2 =>
        rcases pr2 with ⟨araw, r2⟩
        cases h3 : splitFirst closeLit r2 with
        | none => simp only [h2, h3]
        | some pr3 =>
          exfalso
          rcases pr3 with ⟨body, rst⟩
          have e1 := splitFirst_eq h1
          have e2 := splitAtChar_eq h2
          have e3 := splitFirst_eq h3
          apply hnopair p araw body rst
          rw [e1, e2, e3]
          simp [List.append_assoc, List.cons_append]
  obtain ⟨hd, tl, rfl⟩ := List.exists_cons_of_ne_nil hne
  show parseGo (hd :: tl).length (hd :: tl) = [.Markdown (hd :: tl)]
  rw [List.length_cons]
  simp only [parseGo, hscan, if_neg hne]

/-- Witness for claim C9: the input holds a stray closing marker before the
    unmatched opening marker, so it has a closing literal somewhere but no
    complete marker pair, and still comes back as one Markdown segment. -/
theorem claim_C9_unterminated_witness :
    containsSub openLit str_C9w = true ∧
    (∀ a b c d, str_C9w ≠ a ++ openLit ++ b ++ '>' :: (c ++ closeLit ++ d)) ∧
    containsSub closeLit str_C9w = true ∧
    parse_message_parts str_C9w = [.Markdown str_C9w] :=
  ⟨by decide, no_pair_of_checks (by decide), by decide,
    claim_C9_unterminated str_C9w (by decide) (no_pair_of_checks (by decide))⟩

/-
  Claim C1.
-/

theorem consumeStream_error (rest : List (Except Unit Str)) :
    ∀ (good : List Str) (st : Str × Str),
      consumeStream st (good.map Except.ok ++ Except.error () :: rest) = .error () := by
  intro good
  induction good with
  | nil => intro st; rfl
  | cons g gs ih =>
    intro st
    rw [List.map_cons, List.cons_append]
    exact ih (accumLine st.1 st.2 g)

/-- Claim C1 (counterexample): with the stream yielding "Hello " then "World"
    then a transport error, handle_query surfaces the error but the store still
    holds the original conversation: no Assistant turn with the partial content
    was appended or persisted, contradicting the claimed partial-failure
    durability. -/
theorem claim_C1_counterexample :
    (handle_query fetchOk "hi".data chunks_C1 (Conversation.empty "c".data)).db.messages
      = [] ∧
    (handle_query fetchOk "hi".data chunks_C1 (Conversation.empty "c".data)).result
      = .error () :=
  ⟨rfl, rfl⟩

/-- Claim C1 (amended): when the chunk stream yields any prefix of successful
    chunks followed by a transport error, handle_query returns the error
    immediately: the store is left unchanged, no Assistant turn is appended, and
    the partial content is discarded. -/
theorem claim_C1_amended (fetch : Fetch) (query : Str) (good : List Str)
    (rest : List (Except Unit Str)) (dbConv conv1 : Conversation)
    (h : Conversation.add_user_message fetch query dbConv = (.ok (), conv1)) :
    (handle_query fetch query (good.map Except.ok ++ Except.error () :: rest) dbConv).result
      = .error () ∧
    (handle_query fetch query (good.map Except.ok ++ Except.error () :: rest) dbConv).db
      = dbConv := by
  unfold handle_query
  simp only [h, consumeStream_error]
  simp

/-- Witness for the amended claim C1 at a concrete one-chunk prefix. -/
theorem claim_C1_amended_witness :
    (handle_query fetchOk "q".data
        (["Hello ".data].map Except.ok ++ Except.error () :: [])
        (Conversation.empty "c".data)).result = .error () ∧
    (handle_query fetchOk "q".data
        (["Hello ".data].map Except.ok ++ Except.error () :: [])
        (Conversation.empty "c".data)).db = Conversation.empty "c".data :=
  claim_C1_amended fetchOk "q".data ["Hello ".data] [] (Conversation.empty "c".data)
    conv_C1_user rfl

/-
  Claim C10.
-/

/-- Claim C10 (confirmed): whenever the parsed document of the matched
    ClaippyArtifact block has no descendant element literally named
    ClippyArtifact, extract_from_message returns None; in particular an artifact
    written in the documented ClaippyArtifact convention (whose root element is
    named ClaippyArtifact) never produces Some, because parse_artifact_xml
    searches for the differently spelled tag name. -/
theorem claim_C10_tag_mismatch (parseXml : XmlParse) (message : Str)
    (h : ∀ block doc, matchArtifactBlock message = some block →
      parseXml block = some doc → ∀ n ∈ doc.descendants, n.name ≠ clippyTag) :
    Artifact.extract_from_message parseXml message = none := by
  unfold Artifact.extract_from_message
  cases hm : matchArtifactBlock message with
  | none => rfl
  | some block =>
    show Artifact.parse_artifact_xml parseXml block = none
    unfold Artifact.parse_artifact_xml
    cases hp : parseXml block with
    | none => rfl
    | some doc =>
      have hfind : doc.descendants.find? (fun n => n.name == clippyTag) = none := by
        rw [List.find?_eq_none]
        intro n hn hcontra
        exact h block doc hm hp n hn (by simpa using hcontra)
      simp only [hfind]

/-- Witness for claim C10: the documented wrapping convention on one line, with
    the XML oracle returning the root element named ClaippyArtifact. -/
theorem claim_C10_tag_mismatch_witness :
    Artifact.extract_from_message xmlOracle_C10 msg_C10 = none :=
  claim_C10_tag_mismatch xmlOracle_C10 msg_C10 (by
    intro block doc hm hp n hn
    simp only [xmlOracle_C10] at hp
    injection hp with hp'
    subst hp'
    rw [List.mem_singleton] at hn
    subst hn
    decide)
